import Mathlib

/-!
Verification of the markdown link checker (`src/utils/check_links.py`).

The embedding below models strings as `List Char` (the script operates on
ASCII markdown and HTTP metadata; Python's `str` operations restricted to
ASCII coincide with the character-level operations used here).  The two
regular expressions of the script are embedded as deterministic scanners:
for both patterns the regex engine cannot backtrack (every quantified
character class is followed by a literal the class excludes), so a
single-pass scanner computes exactly the `re.finditer` / `re.sub` /
`re.findall` results.

Network-facing code (`check_url`) is modelled by passing the outcomes of
the at most three HTTP requests (the HEAD probe, the first GET, and the
second GET issued when the first GET raises inside the main branch) as
explicit arguments; a request either yields a response (status, reason
phrase, content type, body) or fails with an error text, mirroring
`requests` raising `RequestException`.  The `USE_REQUESTS = True` branch
of the script (the `requests` library is importable) is the one embedded,
matching the code locations the specification cites.
-/

/-- Python whitespace test for the ASCII range: the characters matched by
`str.strip()` and by the regex class `\s` on ASCII input. -/
def pyIsSpace (c : Char) : Bool :=
  c == ' ' || c == '\t' || c == '\n' || c == '\r' || c == '\x0b' || c == '\x0c'

/-- Python `str.lower()` restricted to ASCII, as used by the script on
content types, URLs and HTML bodies. -/
def pyLower (l : List Char) : List Char :=
  l.map Char.toLower

/-- Python `str.strip()`: drop leading and trailing whitespace. -/
def pyStrip (l : List Char) : List Char :=
  ((l.dropWhile pyIsSpace).reverse.dropWhile pyIsSpace).reverse

/-- Python `str.rstrip(S)`: drop trailing characters that belong to `S`. -/
def pyRstripSet (S : List Char) (l : List Char) : List Char :=
  (l.reverse.dropWhile (fun c => S.contains c)).reverse

/-- Split a list at the first occurrence of the pattern `pat`, returning
the part before it and the part after it.  Models Python
`s.split(pat)[0]` (first component) and `pat in s` (`isSome`). -/
def splitFirst (pat : List Char) : List Char → Option (List Char × List Char)
  | [] => if pat.isEmpty then some ([], []) else none
  | c :: cs =>
    if pat.isPrefixOf (c :: cs) then some ([], (c :: cs).drop pat.length)
    else
      match splitFirst pat cs with
      | some (b, r) => some (c :: b, r)
      | none => none

/-- Python substring test `pat in s`. -/
def containsSub (pat : List Char) (l : List Char) : Bool :=
  (splitFirst pat l).isSome

/-- Index of the first occurrence of `pat` in `l`, if any. -/
def idxOfSub (pat : List Char) (l : List Char) : Option Nat :=
  (splitFirst pat l).map (fun p => p.1.length)

/-- Try to match the markdown-link regex `\[([^\]]+)\]\(([^)]+)\)` at the
head of `l`.  Returns `(label, target, rest)` on success.  The pattern is
backtracking-free: each `+`-quantified class is followed by the very
literal the class excludes, so the greedy maximal run is the only
possible match. -/
def matchMdAt (l : List Char) : Option (List Char × List Char × List Char) :=
  match l with
  | [] => none
  | c :: r0 =>
    if c = '[' then
      let label := r0.takeWhile (fun x => x != ']')
      if label.isEmpty then none
      else
        match r0.dropWhile (fun x => x != ']') with
        | ']' :: '(' :: r2 =>
          let tgt := r2.takeWhile (fun x => x != ')')
          if tgt.isEmpty then none
          else
            match r2.dropWhile (fun x => x != ')') with
            | ')' :: r4 => some (label, tgt, r4)
            | _ => none
        | _ => none
    else none

/-- Fuel-indexed scan for all matches of the markdown-link pattern, in
the order `re.finditer` yields them (leftmost, non-overlapping): at each
position try a match; on success continue after it, otherwise advance one
character.  Each step consumes at least one character
(`matchMdAt_rest_len`), so fuel `l.length` always suffices; the fuel only
makes the recursion structural (`finditerMdF_fuel` below shows the result
does not depend on any sufficient fuel). -/
def finditerMdF : Nat → List Char → List (List Char × List Char)
  | 0, _ => []
  | fuel + 1, l =>
    match matchMdAt l with
    | some (a, b, rest) => (a, b) :: finditerMdF fuel rest
    | none =>
      match l with
      | [] => []
      | _ :: cs => finditerMdF fuel cs

/-- All matches of the markdown-link pattern in `l`: `re.finditer` of
line 46 of the script. -/
def finditerMd (l : List Char) : List (List Char × List Char) :=
  finditerMdF l.length l

/-- Fuel-indexed deletion of all markdown-link matches; see
`finditerMdF` for the fuel discipline. -/
def removeMdF : Nat → List Char → List Char
  | 0, _ => []
  | fuel + 1, l =>
    match matchMdAt l with
    | some (_, _, rest) => removeMdF fuel rest
    | none =>
      match l with
      | [] => []
      | c :: cs => c :: removeMdF fuel cs

/-- The line with all markdown-link matches deleted:
`re.sub(markdown_link_pattern, \'\', line)` of line 57. -/
def removeMd (l : List Char) : List Char :=
  removeMdF l.length l

/-- Character class `[^\s\)]` of the raw-URL pattern. -/
def rawTokenChar (c : Char) : Bool :=
  !(pyIsSpace c) && c != ')'

/-- Try to match the raw-URL regex `https?://[^\s\)]+` at the head of
`l`, returning `(match, rest)`.  The optional `s` cannot backtrack
(after dropping it the next literal `:` can never equal `s`), and the
final `+`-class is maximal since nothing follows it. -/
def matchRawAt (l : List Char) : Option (List Char × List Char) :=
  if ("http".data).isPrefixOf l then
    let r0 := l.drop 4
    if ("s://".data).isPrefixOf r0 then
      let r1 := r0.drop 4
      let tok := r1.takeWhile rawTokenChar
      if tok.isEmpty then none
      else some (("https://".data) ++ tok, r1.dropWhile rawTokenChar)
    else if ("://".data).isPrefixOf r0 then
      let r1 := r0.drop 3
      let tok := r1.takeWhile rawTokenChar
      if tok.isEmpty then none
      else some (("http://".data) ++ tok, r1.dropWhile rawTokenChar)
    else none
  else none

/-- Fuel-indexed scan for all matches of the raw-URL pattern; see
`finditerMdF` for the fuel discipline (here `matchRawAt_rest_len`
justifies fuel `l.length`). -/
def finditerRawF : Nat → List Char → List (List Char)
  | 0, _ => []
  | fuel + 1, l =>
    match matchRawAt l with
    | some (m, rest) => m :: finditerRawF fuel rest
    | none =>
      match l with
      | [] => []
      | _ :: cs => finditerRawF fuel cs

/-- All matches of the raw-URL pattern, `re.finditer` order (line 58). -/
def finditerRaw (l : List Char) : List (List Char) :=
  finditerRawF l.length l

/-- Python `content.split('\n')`. -/
def splitOnNl : List Char → List (List Char)
  | [] => [[]]
  | c :: cs =>
    if c = '\n' then [] :: splitOnNl cs
    else
      match splitOnNl cs with
      | [] => [[c]]
      | lcur :: ls => (c :: lcur) :: ls

/-- Cleaning of a markdown-link target (`extract_links_from_markdown`,
lines 47-50): `url = match.group(2).strip()`, then if `'](' in url`
truncate at its first occurrence (`url.split('](')[0]`). -/
def clean_md_url (tgt : List Char) : List Char :=
  match splitFirst ("](".data) (pyStrip tgt) with
  | some (before, _) => before
  | none => pyStrip tgt

/-- Cleaning of a raw-URL match (lines 59-61): `match.group(0).strip()`
followed by `url.rstrip('.,;:!?)')`. -/
def clean_raw_url (m : List Char) : List Char :=
  pyRstripSet (".,;:!?)".data) (pyStrip m)

/-- The markdown-link loop of `extract_links_from_markdown`
(lines 46-53): for each match in order, clean the target, keep it when it
starts with `http` and was not already seen on this line, recording it in
the line-local seen set. -/
def md_pass : List (List Char × List Char) → List (List Char) → List (List Char) →
    List (List Char) × List (List Char)
  | [], links, seen => (links, seen)
  | m :: ms, links, seen =>
    if ("http".data).isPrefixOf (clean_md_url m.2) ∧ clean_md_url m.2 ∉ seen then
      md_pass ms (links ++ [clean_md_url m.2]) (clean_md_url m.2 :: seen)
    else md_pass ms links seen

/-- The raw-URL loop of `extract_links_from_markdown` (lines 58-64): for
each raw match in order, strip and rstrip it, keep it when not already
seen on this line. -/
def raw_pass : List (List Char) → List (List Char) → List (List Char) →
    List (List Char) × List (List Char)
  | [], links, seen => (links, seen)
  | m :: ms, links, seen =>
    if clean_raw_url m ∉ seen then
      raw_pass ms (links ++ [clean_raw_url m]) (clean_raw_url m :: seen)
    else raw_pass ms links seen

/-- Per-line processing of `extract_links_from_markdown` (lines 42-64):
run the markdown-link loop with a fresh seen set, then the raw-URL loop
on the line with markdown-link spans removed, threading the seen set. -/
def process_line (line : List Char) : List (List Char) :=
  let st1 := md_pass (finditerMd line) [] []
  (raw_pass (finditerRaw (removeMd line)) st1.1 st1.2).1

/-- The line loop `for line_num, line in enumerate(lines, start=1)`:
collect each line's URLs paired with its 1-based line number. -/
def extract_lines : Nat → List (List Char) → List (List Char × Nat)
  | _, [] => []
  | n, l :: ls => (process_line l).map (fun u => (u, n)) ++ extract_lines (n + 1) ls

/-- `extract_links_from_markdown` (lines 28-66): split the content on
newlines and run the per-line extraction with 1-based line numbers. -/
def extract_links_from_markdown (content : List Char) : List (List Char × Nat) :=
  extract_lines 1 (splitOnNl content)

/-- The content types of `is_downloadable_file` (lines 81-93) that mark a
URL as a downloadable file. -/
def file_type_indicators : List (List Char) :=
  [("application/pdf".data), ("application/zip".data), ("application/x-zip".data),
   ("application/gzip".data), ("application/x-gzip".data),
   ("application/octet-stream".data), ("image/".data), ("video/".data),
   ("audio/".data), ("application/json".data), ("text/plain".data)]

/-- The URL extensions of `is_downloadable_file` (lines 99-106). -/
def file_extensions : List (List Char) :=
  [(".pdf".data), (".zip".data), (".gz".data), (".tar".data), (".rar".data),
   (".7z".data), (".jpg".data), (".jpeg".data), (".png".data), (".gif".data),
   (".svg".data), (".webp".data), (".ico".data), (".mp4".data), (".mp3".data),
   (".avi".data), (".mov".data), (".wmv".data), (".doc".data), (".docx".data),
   (".xls".data), (".xlsx".data), (".ppt".data), (".pptx".data), (".csv".data),
   (".tsv".data), (".json".data), (".xml".data), (".exe".data), (".dmg".data),
   (".deb".data), (".rpm".data)]

/-- `is_downloadable_file` (lines 69-107).  A non-empty content type that
contains `text/html` is not downloadable; a non-empty content type
containing one of the indicators is; otherwise (including an empty
content type, Python's falsy `''`/`None`) fall back to the URL-extension
check on the lowercased URL. -/
def is_downloadable_file (url : List Char) (content_type : List Char) : Bool :=
  if content_type.isEmpty = false ∧
      containsSub ("text/html".data) (pyLower content_type) = true then false
  else if content_type.isEmpty = false ∧
      (file_type_indicators.any (fun i => containsSub i (pyLower content_type))) = true then true
  else file_extensions.any (fun e => e.isSuffixOf (pyLower url))

/-- An HTTP response as consumed by `check_url`: status code, reason
phrase, `Content-Type` header value (empty when the header is absent),
and the raw body (only read in the GET paths). -/
structure HttpResponse where
  status_code : Nat
  reason : List Char
  content_type : List Char
  body : List Char

/-- Outcome of issuing one HTTP request: a response, or a raised
`RequestException` / `Exception` carrying `str(e)`. -/
inductive ReqResult where
  | ok (r : HttpResponse)
  | err (msg : List Char)

/-- The error message `f"{status_code} {reason}"` (lines 138, 187, 206,
241). -/
def fmt_status (status : Nat) (reason : List Char) : List Char :=
  (Nat.repr status).data ++ (" ".data) ++ reason

/-- `MAX_BODY_SIZE = 8192` (line 119): only the first 8 KB of a body are
read for HTML content verification. -/
def MAX_BODY_SIZE : Nat := 8192

/-- Try to match the title regex `<title[^>]*>(.*?)</title>` at the head
of `l` (compiled with `DOTALL`; `IGNORECASE` is immaterial because the
script lowercases the content first), returning the first capture group.
`[^>]*` cannot backtrack past the literal `>`, and the lazy group is the
text before the first following `</title>`. -/
def matchTitleAt (l : List Char) : Option (List Char) :=
  if ("<title".data).isPrefixOf l then
    match (l.drop 6).dropWhile (fun c => c != '>') with
    | '>' :: r1 =>
      match splitFirst ("</title>".data) r1 with
      | some (grp, _) => some grp
      | none => none
    | _ => none
  else none

/-- The first match of the title regex in `l`: `re.findall(...)[0]`
restricted to the only element the script uses (lines 162-164). -/
def firstTitle : List Char → Option (List Char)
  | [] => none
  | c :: cs =>
    match matchTitleAt (c :: cs) with
    | some g => some g
    | none => firstTitle cs

/-- The soft-404 phrases checked against the title text (lines 167-174). -/
def notFoundPhrases : List (List Char) :=
  [("page not found".data), ("not found".data), ("404".data),
   ("page does not exist".data), ("couldn\x27t find the page".data),
   ("we couldn\x27t find".data)]

/-- The 200-status HTML content inspection (lines 152-185, duplicated
verbatim at lines 211-239 and in the urllib fallback): lowercase the
first `MAX_BODY_SIZE` bytes of the body (the `iter_content` loop
accumulates 1024-byte chunks until at least 8192 bytes were read), take
the first `<title>` capture; if present, the page is invalid when the
stripped title text contains a soft-404 phrase, quoting the title in the
message; with no title, scan the capped prefix for `page not found` or
`404`.  Returns the updated `(is_valid, error_message)` pair. -/
def inspect_content (body : List Char) : Bool × List Char :=
  match firstTitle (pyLower (body.take MAX_BODY_SIZE)) with
  | some t =>
    if notFoundPhrases.any (fun p => containsSub p (pyStrip t)) then
      (false, ("200 (but page shows \x27".data) ++ pyStrip t ++ ("\x27 in title)".data))
    else (true, [])
  | none =>
    if containsSub ("page not found".data) ((pyLower (body.take MAX_BODY_SIZE)).take MAX_BODY_SIZE)
        || containsSub ("404".data) ((pyLower (body.take MAX_BODY_SIZE)).take MAX_BODY_SIZE) then
      (false, ("200 (but page content suggests 404)".data))
    else (true, [])

/-- Evaluation of a successful body-fetching GET in the fallback branch
(lines 199-241): trust the status for downloadable files, inspect the
body of a 200-status HTML page, otherwise report the status with the
reason phrase.  -/
def handle_response (url : List Char) (r : HttpResponse) : Bool × Nat × List Char :=
  if is_downloadable_file url r.content_type then
    (decide (r.status_code < 400), r.status_code,
      if r.status_code < 400 then [] else fmt_status r.status_code r.reason)
  else if decide (r.status_code < 400) && (r.status_code == 200) then
    ((inspect_content r.body).1, r.status_code, (inspect_content r.body).2)
  else
    (decide (r.status_code < 400), r.status_code,
      if r.status_code < 400 then [] else fmt_status r.status_code r.reason)

/-- The fallback GET of lines 190-243: issued when a
`RequestException` reached line 189; a failing GET yields
`(False, 0, str(inner_e))` (line 243). -/
def get_fallback (url : List Char) : ReqResult → Bool × Nat × List Char
  | .err m => (false, 0, m)
  | .ok r => handle_response url r

/-- `check_url` (lines 110-243, `USE_REQUESTS` branch).  `headR` is the
outcome of the HEAD probe (line 124); `getR1` is the outcome of the first
GET issued, which is either the body-verification GET of line 145 (when
the probe returned a 200 non-downloadable page) or the fallback GET of
line 192 (when the probe raised); `getR2` is the outcome of the fallback
GET issued when the line-145 GET itself raised a `RequestException`,
which control flow sends to the handler at line 189. -/
def check_url (url : List Char) (headR getR1 getR2 : ReqResult) : Bool × Nat × List Char :=
  match headR with
  | .err _ => get_fallback url getR1
  | .ok hr =>
    if is_downloadable_file url hr.content_type then
      (decide (hr.status_code < 400), hr.status_code,
        if hr.status_code < 400 then [] else fmt_status hr.status_code hr.reason)
    else if decide (hr.status_code < 400) && (hr.status_code == 200) then
      match getR1 with
      | .err _ => get_fallback url getR2
      | .ok gr =>
        ((inspect_content gr.body).1, hr.status_code, (inspect_content gr.body).2)
    else
      (decide (hr.status_code < 400), hr.status_code,
        if hr.status_code < 400 then [] else fmt_status hr.status_code hr.reason)

/-- Premise predicate for the claim that an input text has no links with
an `http` or `https` scheme: the text contains neither `http://` nor
`https://` anywhere (every URL whose scheme is `http` or `https`
contains one of these substrings, so inputs satisfying this predicate —
e.g. ones holding only `mailto:` or relative-path targets — have no such
links). -/
def no_http_scheme_links (text : List Char) : Bool :=
  !(containsSub ("http://".data) text) && !(containsSub ("https://".data) text)

theorem takeWhile_dropWhile_length {α : Type} (p : α → Bool) (l : List α) :
    (l.takeWhile p).length + (l.dropWhile p).length = l.length := by
  have h := congrArg List.length (List.takeWhile_append_dropWhile p l)
  rw [List.length_append] at h
  exact h

theorem matchMdAt_rest_len {l a b rest} (h : matchMdAt l = some (a, b, rest)) :
    rest.length < l.length := by
  match l with
  | [] => simp [matchMdAt] at h
  | c :: r0 =>
    unfold matchMdAt at h
    simp only at h
    split at h
    · split at h
      · exact absurd h (by simp)
      · have h0 := takeWhile_dropWhile_length (fun x => x != ']') r0
        split at h
        · rename_i r2 heq2
          have h2 := takeWhile_dropWhile_length (fun x => x != ')') r2
          split at h
          · exact absurd h (by simp)
          · split at h
            · rename_i r4 heq4
              simp only [Option.some.injEq, Prod.mk.injEq] at h
              obtain ⟨-, -, hrest⟩ := h
              subst hrest
              rw [heq2] at h0
              rw [heq4] at h2
              simp only [List.length_cons] at h0 h2 ⊢
              omega
            · exact absurd h (by simp)
        · exact absurd h (by simp)
    · exact absurd h (by simp)

theorem finditerMdF_fuel : ∀ (fuel fuel' : Nat) (l : List Char),
    l.length ≤ fuel → l.length ≤ fuel' → finditerMdF fuel l = finditerMdF fuel' l := by
  intro fuel
  induction fuel with
  | zero =>
    intro fuel' l hl hl'
    have : l = [] := by
      cases l with
      | nil => rfl
      | cons c cs => simp at hl
    subst this
    cases fuel' <;> simp [finditerMdF, matchMdAt]
  | succ fuel ih =>
    intro fuel' l hl hl'
    cases fuel' with
    | zero =>
      have : l = [] := by
        cases l with
        | nil => rfl
        | cons c cs => simp at hl'
      subst this
      simp [finditerMdF, matchMdAt]
    | succ fuel' =>
      simp only [finditerMdF]
      cases hm : matchMdAt l with
      | some v =>
        obtain ⟨a, b, rest⟩ := v
        have hlen := matchMdAt_rest_len hm
        dsimp only
        rw [ih fuel' rest (by omega) (by omega)]
      | none =>
        cases l with
        | nil => rfl
        | cons c cs =>
          simp only [List.length_cons] at hl hl'
          dsimp only
          exact ih fuel' cs (by omega) (by omega)

theorem removeMdF_fuel : ∀ (fuel fuel' : Nat) (l : List Char),
    l.length ≤ fuel → l.length ≤ fuel' → removeMdF fuel l = removeMdF fuel' l := by
  intro fuel
  induction fuel with
  | zero =>
    intro fuel' l hl hl'
    have : l = [] := by
      cases l with
      | nil => rfl
      | cons c cs => simp at hl
    subst this
    cases fuel' <;> simp [removeMdF, matchMdAt]
  | succ fuel ih =>
    intro fuel' l hl hl'
    cases fuel' with
    | zero =>
      have : l = [] := by
        cases l with
        | nil => rfl
        | cons c cs => simp at hl'
      subst this
      simp [removeMdF, matchMdAt]
    | succ fuel' =>
      simp only [removeMdF]
      cases hm : matchMdAt l with
      | some v =>
        obtain ⟨a, b, rest⟩ := v
        have hlen := matchMdAt_rest_len hm
        dsimp only
        rw [ih fuel' rest (by omega) (by omega)]
      | none =>
        cases l with
        | nil => rfl
        | cons c cs =>
          simp only [List.length_cons] at hl hl'
          dsimp only
          rw [ih fuel' cs (by omega) (by omega)]

theorem matchRawAt_rest_len {l m rest} (h : matchRawAt l = some (m, rest)) :
    rest.length < l.length := by
  unfold matchRawAt at h
  simp only at h
  split at h
  · rename_i hpre
    split at h
    · split at h
      · exact absurd h (by simp)
      · rename_i htok
        simp only [Option.some.injEq, Prod.mk.injEq] at h
        obtain ⟨-, hrest⟩ := h
        subst hrest
        have h1 := takeWhile_dropWhile_length rawTokenChar ((l.drop 4).drop 4)
        have h2 : ((l.drop 4).drop 4).length ≤ l.length := by
          simp [List.length_drop]
        have h3 : (((l.drop 4).drop 4).takeWhile rawTokenChar).length ≠ 0 := by
          simpa [List.isEmpty_iff, List.length_eq_zero] using htok
        have h4 : l.length ≠ 0 := by
          intro h0
          rw [List.length_eq_zero] at h0
          subst h0
          simp [List.IsPrefix] at hpre
        omega
    · split at h
      · split at h
        · exact absurd h (by simp)
        · rename_i htok
          simp only [Option.some.injEq, Prod.mk.injEq] at h
          obtain ⟨-, hrest⟩ := h
          subst hrest
          have h1 := takeWhile_dropWhile_length rawTokenChar ((l.drop 4).drop 3)
          have h2 : ((l.drop 4).drop 3).length ≤ l.length := by
            simp [List.length_drop]
          have h3 : (((l.drop 4).drop 3).takeWhile rawTokenChar).length ≠ 0 := by
            simpa [List.isEmpty_iff, List.length_eq_zero] using htok
          have h4 : l.length ≠ 0 := by
            intro h0
            rw [List.length_eq_zero] at h0
            subst h0
            simp [List.IsPrefix] at hpre
          omega
      · exact absurd h (by simp)
  · exact absurd h (by simp)

theorem finditerRawF_fuel : ∀ (fuel fuel' : Nat) (l : List Char),
    l.length ≤ fuel → l.length ≤ fuel' → finditerRawF fuel l = finditerRawF fuel' l := by
  intro fuel
  induction fuel with
  | zero =>
    intro fuel' l hl hl'
    have : l = [] := by
      cases l with
      | nil => rfl
      | cons c cs => simp at hl
    subst this
    cases fuel' <;> simp [finditerRawF, matchRawAt, List.isPrefixOf]
  | succ fuel ih =>
    intro fuel' l hl hl'
    cases fuel' with
    | zero =>
      have : l = [] := by
        cases l with
        | nil => rfl
        | cons c cs => simp at hl'
      subst this
      simp [finditerRawF, matchRawAt, List.isPrefixOf]
    | succ fuel' =>
      simp only [finditerRawF]
      cases hm : matchRawAt l with
      | some v =>
        obtain ⟨m, rest⟩ := v
        have hlen := matchRawAt_rest_len hm
        dsimp only
        rw [ih fuel' rest (by omega) (by omega)]
      | none =>
        cases l with
        | nil => rfl
        | cons c cs =>
          simp only [List.length_cons] at hl hl'
          dsimp only
          exact ih fuel' cs (by omega) (by omega)

theorem md_pass_sub : ∀ (ms : List (List Char × List Char)) (links seen : List (List Char))
    (x : List Char), x ∈ links → x ∈ (md_pass ms links seen).1 := by
  intro ms
  induction ms with
  | nil => intro links seen x hx; simpa [md_pass] using hx
  | cons m ms ih =>
    intro links seen x hx
    simp only [md_pass]
    split
    · exact ih _ _ x (by simp [hx])
    · exact ih _ _ x hx

theorem md_pass_inv : ∀ (ms : List (List Char × List Char)) (links seen : List (List Char)),
    (∀ y, y ∈ links ↔ y ∈ seen) →
    ∀ y, y ∈ (md_pass ms links seen).1 ↔ y ∈ (md_pass ms links seen).2 := by
  intro ms
  induction ms with
  | nil => intro links seen hinv y; simpa [md_pass] using hinv y
  | cons m ms ih =>
    intro links seen hinv y
    simp only [md_pass]
    split
    · exact ih _ _ (fun z => by simp [List.mem_append, List.mem_cons, hinv z, or_comm]) y
    · exact ih _ _ hinv y

theorem md_pass_nodup : ∀ (ms : List (List Char × List Char)) (links seen : List (List Char)),
    (∀ y, y ∈ links ↔ y ∈ seen) → links.Nodup → (md_pass ms links seen).1.Nodup := by
  intro ms
  induction ms with
  | nil => intro links seen _ hnd; simpa [md_pass] using hnd
  | cons m ms ih =>
    intro links seen hinv hnd
    simp only [md_pass]
    split
    · rename_i hc
      refine ih _ _ (fun z => by simp [List.mem_append, List.mem_cons, hinv z, or_comm]) ?_
      refine List.Nodup.append hnd (List.nodup_singleton _) ?_
      intro a ha hb
      simp only [List.mem_singleton] at hb
      subst hb
      exact hc.2 ((hinv _).1 ha)
    · exact ih _ _ hinv hnd

theorem md_pass_mem : ∀ (ms : List (List Char × List Char)) (links seen : List (List Char))
    (u : List Char), (∀ y, y ∈ links ↔ y ∈ seen) →
    (∃ m ∈ ms, clean_md_url m.2 = u ∧ ("http".data).isPrefixOf u = true) →
    u ∈ (md_pass ms links seen).1 := by
  intro ms
  induction ms with
  | nil => intro links seen u _ h; simp at h
  | cons m ms ih =>
    intro links seen u hinv h
    obtain ⟨m', hm', hclean, hpre⟩ := h
    rcases List.mem_cons.1 hm' with heq | htail
    · subst heq
      simp only [md_pass]
      split
      · exact md_pass_sub _ _ _ u (by simp [hclean])
      · rename_i hc
        rw [hclean] at hc
        have hu : u ∈ seen := by
          by_contra hns
          exact hc ⟨hpre, hns⟩
        exact md_pass_sub _ _ _ u ((hinv u).2 hu)
    · simp only [md_pass]
      split
      · exact ih _ _ u (fun z => by simp [List.mem_append, List.mem_cons, hinv z, or_comm])
          ⟨m', htail, hclean, hpre⟩
      · exact ih _ _ u hinv ⟨m', htail, hclean, hpre⟩

theorem md_pass_src : ∀ (ms : List (List Char × List Char)) (links seen : List (List Char))
    (u : List Char), u ∈ (md_pass ms links seen).1 →
    u ∈ links ∨ ∃ m ∈ ms, clean_md_url m.2 = u ∧ ("http".data).isPrefixOf u = true := by
  intro ms
  induction ms with
  | nil => intro links seen u h; left; simpa [md_pass] using h
  | cons m ms ih =>
    intro links seen u h
    simp only [md_pass] at h
    split at h
    · rename_i hc
      rcases ih _ _ u h with hl | ⟨m', hm', hcl, hp⟩
      · rcases List.mem_append.1 hl with h1 | h2
        · left; exact h1
        · right
          simp only [List.mem_singleton] at h2
          subst h2
          exact ⟨m, by simp, rfl, hc.1⟩
      · right; exact ⟨m', by simp [hm'], hcl, hp⟩
    · rcases ih _ _ u h with hl | ⟨m', hm', hcl, hp⟩
      · left; exact hl
      · right; exact ⟨m', by simp [hm'], hcl, hp⟩

theorem raw_pass_sub : ∀ (ms : List (List Char)) (links seen : List (List Char))
    (x : List Char), x ∈ links → x ∈ (raw_pass ms links seen).1 := by
  intro ms
  induction ms with
  | nil => intro links seen x hx; simpa [raw_pass] using hx
  | cons m ms ih =>
    intro links seen x hx
    simp only [raw_pass]
    split
    · exact ih _ _ x (by simp [hx])
    · exact ih _ _ x hx

theorem raw_pass_nodup : ∀ (ms : List (List Char)) (links seen : List (List Char)),
    (∀ y, y ∈ links ↔ y ∈ seen) → links.Nodup → (raw_pass ms links seen).1.Nodup := by
  intro ms
  induction ms with
  | nil => intro links seen _ hnd; simpa [raw_pass] using hnd
  | cons m ms ih =>
    intro links seen hinv hnd
    simp only [raw_pass]
    split
    · rename_i hc
      refine ih _ _ (fun z => by simp [List.mem_append, List.mem_cons, hinv z, or_comm]) ?_
      refine List.Nodup.append hnd (List.nodup_singleton _) ?_
      intro a ha hb
      simp only [List.mem_singleton] at hb
      subst hb
      exact hc ((hinv _).1 ha)
    · exact ih _ _ hinv hnd

theorem raw_pass_src : ∀ (ms : List (List Char)) (links seen : List (List Char))
    (u : List Char), u ∈ (raw_pass ms links seen).1 →
    u ∈ links ∨ ∃ m ∈ ms, clean_raw_url m = u := by
  intro ms
  induction ms with
  | nil => intro links seen u h; left; simpa [raw_pass] using h
  | cons m ms ih =>
    intro links seen u h
    simp only [raw_pass] at h
    split at h
    · rcases ih _ _ u h with hl | ⟨m', hm', hcl⟩
      · rcases List.mem_append.1 hl with h1 | h2
        · left; exact h1
        · right
          simp only [List.mem_singleton] at h2
          subst h2
          exact ⟨m, by simp, rfl⟩
      · right; exact ⟨m', by simp [hm'], hcl⟩
    · rcases ih _ _ u h with hl | ⟨m', hm', hcl⟩
      · left; exact hl
      · right; exact ⟨m', by simp [hm'], hcl⟩

theorem process_line_nodup (line : List Char) : (process_line line).Nodup := by
  unfold process_line
  exact raw_pass_nodup _ _ _ (md_pass_inv _ _ _ (by simp)) (md_pass_nodup _ _ _ (by simp) (by simp))

theorem process_line_mem_md {line u : List Char}
    (h : ∃ m ∈ finditerMd line, clean_md_url m.2 = u ∧ ("http".data).isPrefixOf u = true) :
    u ∈ process_line line := by
  unfold process_line
  exact raw_pass_sub _ _ _ _ (md_pass_mem _ _ _ _ (by simp) h)

theorem process_line_src {line u : List Char} (h : u ∈ process_line line) :
    (∃ m ∈ finditerMd line, clean_md_url m.2 = u ∧ ("http".data).isPrefixOf u = true) ∨
    (∃ m ∈ finditerRaw (removeMd line), clean_raw_url m = u) := by
  unfold process_line at h
  rcases raw_pass_src _ _ _ _ h with h1 | h2
  · rcases md_pass_src _ _ _ _ h1 with h0 | hex
    · simp at h0
    · left; exact hex
  · right; exact h2

theorem splitOnNl_no_newline : ∀ {l : List Char}, '\n' ∉ l → splitOnNl l = [l] := by
  intro l
  induction l with
  | nil => intro _; rfl
  | cons c cs ih =>
    intro h
    have hc : ¬ c = '\n' := fun hh => h (by simp [hh])
    have ih' := ih (fun hh => h (List.mem_cons_of_mem _ hh))
    simp [splitOnNl, hc, ih']

theorem count_zero_of_not_mem : ∀ {l : List (List Char)} {a : List Char},
    a ∉ l → l.count a = 0 := by
  intro l
  induction l with
  | nil => intro a _; rfl
  | cons b t ih =>
    intro a h
    simp only [List.mem_cons, not_or] at h
    rw [List.count_cons, ih h.2]
    have hne : (b == a) = false := by
      rw [beq_eq_false_iff_ne]
      exact fun hh => h.1 hh.symm
    simp [hne]

theorem count_one_of_nodup_mem : ∀ {l : List (List Char)} {a : List Char},
    l.Nodup → a ∈ l → l.count a = 1 := by
  intro l
  induction l with
  | nil => intro a _ h; simp at h
  | cons b t ih =>
    intro a hnd h
    rw [List.count_cons]
    rcases List.mem_cons.1 h with rfl | ht
    · rw [count_zero_of_not_mem (List.nodup_cons.1 hnd).1]
      simp
    · rw [ih (List.nodup_cons.1 hnd).2 ht]
      have hne : (b == a) = false := by
        rw [beq_eq_false_iff_ne]
        intro hh
        subst hh
        exact (List.nodup_cons.1 hnd).1 ht
      simp [hne]

theorem count_map_pair : ∀ (l : List (List Char)) (u : List Char) (n : Nat),
    ((l.map (fun v => (v, n))).count (u, n)) = l.count u := by
  intro l u n
  induction l with
  | nil => rfl
  | cons v vs ih =>
    by_cases hvu : v = u
    · subst hvu
      simp [List.count_cons, ih]
    · simp [List.count_cons, ih, hvu]

/-- C1: on any single markdown line (a newline-free text) that contains a
bracketed link whose cleaned target is the URL `u` (beginning with
`http`) and on which the raw-URL scan of the link-stripped line also
finds `u`, extraction returns exactly one occurrence of `u` for that
line: the bracketed form wins and the line-local seen set suppresses the
bare form. -/
theorem extract_one_occurrence_of_bracketed_and_bare (line u : List Char)
    (hline : '\n' ∉ line)
    (hmd : ∃ m ∈ finditerMd line, clean_md_url m.2 = u ∧ ("http".data).isPrefixOf u = true)
    (_hraw : ∃ m ∈ finditerRaw (removeMd line), clean_raw_url m = u) :
    (extract_links_from_markdown line).count (u, 1) = 1 := by
  have hmem : u ∈ process_line line := process_line_mem_md hmd
  have hnd : (process_line line).Nodup := process_line_nodup line
  unfold extract_links_from_markdown
  rw [splitOnNl_no_newline hline]
  simp only [extract_lines, List.append_nil]
  rw [count_map_pair]
  exact count_one_of_nodup_mem hnd hmem

/-- Witness for C1 at the spec's own example line. -/
theorem extract_one_occurrence_of_bracketed_and_bare_witness :
    ('\n' ∉ ("[text](http://a) http://a".data)) ∧
    (extract_links_from_markdown ("[text](http://a) http://a".data)).count
      (("http://a".data), 1) = 1 :=
  ⟨by decide, extract_one_occurrence_of_bracketed_and_bare _ _ (by decide) (by decide) (by decide)⟩

theorem extract_lines_snd_ge : ∀ (ls : List (List Char)) (n : Nat) (p : List Char × Nat),
    p ∈ extract_lines n ls → n ≤ p.2 := by
  intro ls
  induction ls with
  | nil => intro n p h; simp [extract_lines] at h
  | cons l ls ih =>
    intro n p h
    simp only [extract_lines, List.mem_append] at h
    rcases h with h | h
    · obtain ⟨u, hu, rfl⟩ := List.mem_map.1 h
      simp
    · have := ih (n + 1) p h
      omega

theorem pairwise_of_total {α : Type} (r : α → α → Prop) (hr : ∀ a b, r a b) :
    ∀ l : List α, List.Pairwise r l := by
  intro l
  induction l with
  | nil => exact List.Pairwise.nil
  | cons a t ih => exact List.Pairwise.cons (fun b _ => hr a b) ih

theorem extract_lines_sorted : ∀ (ls : List (List Char)) (n : Nat),
    List.Pairwise (fun p q : List Char × Nat => p.2 ≤ q.2) (extract_lines n ls) := by
  intro ls
  induction ls with
  | nil => intro n; simp [extract_lines]
  | cons l ls ih =>
    intro n
    simp only [extract_lines]
    rw [List.pairwise_append]
    refine ⟨?_, ih (n + 1), ?_⟩
    · rw [List.pairwise_map]
      exact pairwise_of_total _ (fun a b => le_refl n) _
    · intro p hp q hq
      obtain ⟨u, hu, rfl⟩ := List.mem_map.1 hp
      have := extract_lines_snd_ge _ _ _ hq
      simp only
      omega

theorem extract_lines_provenance : ∀ (ls : List (List Char)) (n : Nat) (p : List Char × Nat),
    p ∈ extract_lines n ls → ∃ l, ls[p.2 - n]? = some l ∧ p.1 ∈ process_line l := by
  intro ls
  induction ls with
  | nil => intro n p h; simp [extract_lines] at h
  | cons l ls ih =>
    intro n p h
    simp only [extract_lines, List.mem_append] at h
    rcases h with h | h
    · obtain ⟨u, hu, rfl⟩ := List.mem_map.1 h
      exact ⟨l, by simp, hu⟩
    · obtain ⟨l', hl', hm⟩ := ih (n + 1) p h
      have hge := extract_lines_snd_ge _ _ _ h
      refine ⟨l', ?_, hm⟩
      have heq : p.2 - n = (p.2 - (n + 1)) + 1 := by omega
      rw [heq]
      simpa using hl'

/-- C7 (amended): extraction returns occurrences ordered by nondecreasing
1-based line number, and each returned pair `(u, n)` satisfies `1 ≤ n`
and carries a URL produced by the per-line processing of line `n` of the
input; within one line the script appends all bracketed-link survivors
first (in match order) and only then the bare survivors, not in order of
textual appearance. -/
theorem extract_ordered_by_line_number (content : List Char) :
    List.Pairwise (fun p q : List Char × Nat => p.2 ≤ q.2)
      (extract_links_from_markdown content) ∧
    ∀ p ∈ extract_links_from_markdown content, 1 ≤ p.2 ∧
      ∃ l, (splitOnNl content)[p.2 - 1]? = some l ∧ p.1 ∈ process_line l := by
  constructor
  · exact extract_lines_sorted _ 1
  · intro p hp
    exact ⟨extract_lines_snd_ge _ _ _ hp, extract_lines_provenance _ _ _ hp⟩

/-- Witness for C7 (amended) at a one-line input. -/
theorem extract_ordered_by_line_number_witness :
    (("http://x".data, 1) ∈ extract_links_from_markdown ("http://x".data)) ∧
    (1 ≤ 1 ∧ ∃ l, (splitOnNl ("http://x".data))[0]? = some l ∧
      ("http://x".data) ∈ process_line l) := by
  refine ⟨by decide, ?_⟩
  have h := (extract_ordered_by_line_number ("http://x".data)).2
    (("http://x".data), 1) (by decide)
  simpa using h

/-- C7 counterexample: on the line `http://b [t](http://a)` the bare URL
`http://b` appears first in the text (index 0, versus index 13 for
`http://a`), yet extraction lists `http://a` first, because all
bracketed-link survivors are appended before any bare survivor;
the output is therefore not in order of appearance in the text. -/
theorem extract_not_in_appearance_order_cex :
    (extract_links_from_markdown ("http://b [t](http://a)".data)).map Prod.fst =
      [("http://a".data), ("http://b".data)] ∧
    idxOfSub ("http://b".data) ("http://b [t](http://a)".data) = some 0 ∧
    idxOfSub ("http://a".data) ("http://b [t](http://a)".data) = some 13 :=
  ⟨by decide, by decide, by decide⟩

theorem dropWhile_all_false {α : Type} {p : α → Bool} :
    ∀ {l : List α}, (∀ c ∈ l, p c = false) → l.dropWhile p = l := by
  intro l
  induction l with
  | nil => intro _; rfl
  | cons a as ih =>
    intro h
    have ha : p a = false := h a (by simp)
    simp [List.dropWhile, ha, ih]

theorem pyStrip_eq_self {l : List Char} (h : ∀ c ∈ l, pyIsSpace c = false) :
    pyStrip l = l := by
  unfold pyStrip
  rw [dropWhile_all_false h,
    dropWhile_all_false (fun c hc => h c (List.mem_reverse.1 hc)), List.reverse_reverse]

theorem dropWhile_append_cons {α : Type} {p : α → Bool} {c : α} (hc : p c = false) :
    ∀ (x y : List α), (x ++ c :: y).dropWhile p = x.dropWhile p ++ c :: y := by
  intro x
  induction x with
  | nil => intro y; simp [List.dropWhile, hc]
  | cons a as ih =>
    intro y
    by_cases ha : p a
    · simp [List.dropWhile, ha, ih]
    · simp [List.dropWhile, ha]

theorem rstrip_through {S : List Char} {c : Char} (hc : S.contains c = false)
    (a b : List Char) : pyRstripSet S (a ++ c :: b) = a ++ c :: pyRstripSet S b := by
  unfold pyRstripSet
  rw [List.reverse_append, List.reverse_cons, List.append_assoc, List.singleton_append,
    dropWhile_append_cons hc, List.reverse_append, List.reverse_cons, List.reverse_reverse]
  simp only [List.append_assoc, List.singleton_append]

theorem isPrefixOf_append_self : ∀ (p l : List Char), p.isPrefixOf (p ++ l) = true := by
  intro p l
  induction p with
  | nil => simp [List.isPrefixOf]
  | cons a as ih => simp [List.isPrefixOf, ih]

theorem containsSub_of_prefixed {p l : List Char} (h : p.isPrefixOf l = true) :
    containsSub p l = true := by
  unfold containsSub
  cases l with
  | nil =>
    cases p with
    | nil => rfl
    | cons a as => simp [List.isPrefixOf] at h
  | cons c cs => simp [splitFirst, h]

theorem matchRawAt_shape {l m rest : List Char} (h : matchRawAt l = some (m, rest)) :
    ∃ tok, tok ≠ [] ∧ (∀ c ∈ tok, rawTokenChar c = true) ∧
      (m = ("http://".data) ++ tok ∨ m = ("https://".data) ++ tok) := by
  unfold matchRawAt at h
  simp only at h
  split at h
  · split at h
    · split at h
      · exact absurd h (by simp)
      · rename_i htok
        simp only [Option.some.injEq, Prod.mk.injEq] at h
        refine ⟨_, ?_, ?_, Or.inr h.1.symm⟩
        · simpa [List.isEmpty_iff] using htok
        · intro c hcm
          exact List.mem_takeWhile_imp hcm
    · split at h
      · split at h
        · exact absurd h (by simp)
        · rename_i htok
          simp only [Option.some.injEq, Prod.mk.injEq] at h
          refine ⟨_, ?_, ?_, Or.inl h.1.symm⟩
          · simpa [List.isEmpty_iff] using htok
          · intro c hcm
            exact List.mem_takeWhile_imp hcm
      · exact absurd h (by simp)
  · exact absurd h (by simp)

theorem finditerRawF_shape : ∀ (fuel : Nat) (l m : List Char), m ∈ finditerRawF fuel l →
    ∃ tok, tok ≠ [] ∧ (∀ c ∈ tok, rawTokenChar c = true) ∧
      (m = ("http://".data) ++ tok ∨ m = ("https://".data) ++ tok) := by
  intro fuel
  induction fuel with
  | zero => intro l m h; simp [finditerRawF] at h
  | succ fuel ih =>
    intro l m h
    simp only [finditerRawF] at h
    cases hm : matchRawAt l with
    | some v =>
      obtain ⟨m', rest⟩ := v
      rw [hm] at h
      simp only [List.mem_cons] at h
      rcases h with rfl | h
      · exact matchRawAt_shape hm
      · exact ih _ _ h
    | none =>
      rw [hm] at h
      cases l with
      | nil => simp at h
      | cons c cs => exact ih _ _ h

theorem clean_raw_http {m : List Char}
    (hs : ∃ tok, tok ≠ [] ∧ (∀ c ∈ tok, rawTokenChar c = true) ∧
      (m = ("http://".data) ++ tok ∨ m = ("https://".data) ++ tok)) :
    ("http".data).isPrefixOf (clean_raw_url m) = true := by
  obtain ⟨tok, -, htok, hm⟩ := hs
  have hnosp : ∀ c ∈ m, pyIsSpace c = false := by
    intro c hcm
    rcases hm with rfl | rfl <;>
    · rcases List.mem_append.1 hcm with hpre | hin
      · have hall : ∀ x ∈ (("http://".data) ++ ("https://".data)), pyIsSpace x = false := by
          decide
        refine hall c ?_
        first
        | exact List.mem_append.2 (Or.inl hpre)
        | exact List.mem_append.2 (Or.inr hpre)
      · have ht := htok c hin
        unfold rawTokenChar at ht
        rw [Bool.and_eq_true] at ht
        simpa using ht.1
  unfold clean_raw_url
  rw [pyStrip_eq_self hnosp]
  have hsl : (".,;:!?)".data).contains '/' = false := by decide
  rcases hm with rfl | rfl
  · have hd : ("http://".data) ++ tok = ("http:/".data) ++ '/' :: tok := rfl
    rw [hd, rstrip_through hsl]
    exact isPrefixOf_append_self ("http".data) ((":/".data) ++ '/' :: pyRstripSet _ tok)
  · have hd : ("https://".data) ++ tok = ("https:/".data) ++ '/' :: tok := rfl
    rw [hd, rstrip_through hsl]
    exact isPrefixOf_append_self ("http".data) (("s:/".data) ++ '/' :: pyRstripSet _ tok)

theorem process_line_http {line u : List Char} (h : u ∈ process_line line) :
    ("http".data).isPrefixOf u = true := by
  rcases process_line_src h with ⟨m, hm, hcl, hp⟩ | ⟨m, hm, hcl⟩
  · exact hp
  · subst hcl
    exact clean_raw_http (finditerRawF_shape _ _ _ hm)

/-- C8 (amended): every URL returned by extraction begins with the
literal four-character prefix `http` — the script filters bracketed
targets with `startswith('http')` and the bare scan only matches
`https?://` tokens (whose rstrip keeps the scheme intact).  The original
claim fails because `startswith('http')` also admits targets that are
not http(s)-scheme links, such as the relative path `httpfoo`. -/
theorem extract_urls_start_with_http (content : List Char) :
    ∀ p ∈ extract_links_from_markdown content, ("http".data).isPrefixOf p.1 = true := by
  intro p hp
  obtain ⟨l, -, hm⟩ := extract_lines_provenance _ _ _ hp
  exact process_line_http hm

/-- Witness for C8 (amended). -/
theorem extract_urls_start_with_http_witness :
    (("http://x".data, 1) ∈ extract_links_from_markdown ("http://x".data)) ∧
    ("http".data).isPrefixOf ("http://x".data) = true :=
  ⟨by decide, extract_urls_start_with_http ("http://x".data) (("http://x".data, 1)) (by decide)⟩

/-- C8 counterexample: the input `[a](httpfoo)` contains no link with an
`http` or `https` scheme — its only link target is the relative path
`httpfoo`, and neither `http://` nor `https://` occurs anywhere — yet
extraction returns a non-empty sequence, because the script keeps any
bracketed target with the literal prefix `http`. -/
theorem extract_no_scheme_nonempty_cex :
    no_http_scheme_links ("[a](httpfoo)".data) = true ∧
    extract_links_from_markdown ("[a](httpfoo)".data) = [(("httpfoo".data), 1)] :=
  ⟨by decide, by decide⟩

/-- C10: trailing-punctuation stripping never applies to bracketed-link
targets — every URL produced by the markdown-link loop equals
`clean_md_url` of some match target, i.e. the target after surrounding
whitespace removal and truncation at the first nested `](` only (no
`rstrip`); consequently the line `[label](http://a.) http://a.` yields
the two distinct occurrences `http://a.` (bracketed, dot kept) and
`http://a` (bare, dot stripped). -/
theorem md_urls_not_rstripped :
    (∀ (line u : List Char), u ∈ (md_pass (finditerMd line) [] []).1 →
      ∃ m ∈ finditerMd line, clean_md_url m.2 = u ∧ ("http".data).isPrefixOf u = true) ∧
    extract_links_from_markdown ("[label](http://a.) http://a.".data) =
      [(("http://a.".data), 1), (("http://a".data), 1)] := by
  constructor
  · intro line u hu
    rcases md_pass_src _ _ _ _ hu with h0 | h
    · simp at h0
    · exact h
  · decide

/-- Witness for C10 at the line of its concrete consequence. -/
theorem md_urls_not_rstripped_witness :
    (("http://a.".data) ∈ (md_pass (finditerMd ("[label](http://a.) http://a.".data)) [] []).1) ∧
    (∃ m ∈ finditerMd ("[label](http://a.) http://a.".data),
      clean_md_url m.2 = ("http://a.".data) ∧
      ("http".data).isPrefixOf ("http://a.".data) = true) :=
  ⟨by decide, md_urls_not_rstripped.1 ("[label](http://a.) http://a.".data)
    ("http://a.".data) (by decide)⟩

/-- C3: whenever the HEAD probe fails to execute, `check_url` ignores the
probe's error entirely (the result does not depend on the probe's error
text, nor on the unused second GET slot), retries with a body-fetching
GET, and settles the verdict by `handle_response` — the same
downloadable-check plus size-capped content inspection used after a
successful probe; only a failure of that GET itself yields
`(False, 0, error text)`, never the probe failure alone. -/
theorem check_url_probe_failure_retries_with_get (url e : List Char) (g1 g2 : ReqResult) :
    check_url url (.err e) g1 g2 = check_url url (.err []) g1 g2 ∧
    (∀ g2', check_url url (.err e) g1 g2 = check_url url (.err e) g1 g2') ∧
    (∀ m, g1 = .err m → check_url url (.err e) g1 g2 = (false, 0, m)) ∧
    (∀ r, g1 = .ok r → check_url url (.err e) g1 g2 = handle_response url r) := by
  refine ⟨rfl, fun g2' => rfl, ?_, ?_⟩
  · intro m hm
    subst hm
    rfl
  · intro r hr
    subst hr
    rfl

/-- Witness for C3. -/
theorem check_url_probe_failure_retries_with_get_witness :
    check_url ("http://x".data) (.err ("probe boom".data)) (.err ("refused".data)) (.err []) =
      (false, 0, ("refused".data)) :=
  (check_url_probe_failure_retries_with_get ("http://x".data) ("probe boom".data)
    (.err ("refused".data)) (.err [])).2.2.1 ("refused".data) rfl

/-- C4: when every attempted request fails — the HEAD probe raises with
error text `e` and the retried GET raises with error text `m` — no
exception escapes `check_url`: it returns `isValid = false`,
`statusCode = 0` and the underlying error text of the failed GET as the
message. -/
theorem check_url_all_requests_fail (url e m : List Char) (g2 : ReqResult) :
    check_url url (.err e) (.err m) g2 = (false, 0, m) := rfl

/-- C6: when the probe succeeds and the URL is classified as a
downloadable (non-HTML) resource by content type or extension,
`check_url` trusts the probe alone — valid exactly when the status is
below 400, with an empty message when valid — and the result is
independent of both GET slots, so no body-fetching request is consulted. -/
theorem check_url_downloadable_trusts_probe (url : List Char) (hr : HttpResponse)
    (g1 g2 g1' g2' : ReqResult)
    (h : is_downloadable_file url hr.content_type = true) :
    check_url url (.ok hr) g1 g2 =
      (decide (hr.status_code < 400), hr.status_code,
        if hr.status_code < 400 then [] else fmt_status hr.status_code hr.reason) ∧
    check_url url (.ok hr) g1 g2 = check_url url (.ok hr) g1' g2' := by
  have hmain : ∀ (a b : ReqResult), check_url url (.ok hr) a b =
      (decide (hr.status_code < 400), hr.status_code,
        if hr.status_code < 400 then [] else fmt_status hr.status_code hr.reason) := by
    intro a b
    unfold check_url
    dsimp only
    rw [if_pos h]
  exact ⟨hmain g1 g2, (hmain g1 g2).trans (hmain g1' g2').symm⟩

/-- Witness for C6: a 200-status PDF is valid with empty message. -/
theorem check_url_downloadable_trusts_probe_witness :
    is_downloadable_file ("http://x/doc".data) ("application/pdf".data) = true ∧
    check_url ("http://x/doc".data)
      (.ok ⟨200, ("OK".data), ("application/pdf".data), []⟩) (.err []) (.err []) =
      (true, 200, []) := by
  refine ⟨by decide, ?_⟩
  have h := (check_url_downloadable_trusts_probe ("http://x/doc".data)
    ⟨200, ("OK".data), ("application/pdf".data), []⟩ (.err []) (.err []) (.err []) (.err [])
    (by decide)).1
  simpa using h

theorem handle_response_error_status {url : List Char} {r : HttpResponse}
    (h : 400 ≤ r.status_code) :
    handle_response url r = (false, r.status_code, fmt_status r.status_code r.reason) := by
  have hlt : ¬ (r.status_code < 400) := by omega
  unfold handle_response
  split
  · simp [hlt]
  · split
    · rename_i hg
      rw [Bool.and_eq_true] at hg
      simp [hlt] at hg
    · simp [hlt]

/-- C5 counterexample: the body-verification GET issued after a
200-status probe completes with HTTP status 410, yet `check_url` ignores
that status entirely: the URL is classified valid with status code 200
and an empty message, in particular one not containing `410`, and no
`410`-styled error message is produced. -/
theorem check_url_get_error_status_ignored_cex :
    check_url ("http://x".data) (.ok ⟨200, ("OK".data), ("text/html".data), []⟩)
      (.ok ⟨410, ("Gone".data), ("text/html".data), ("<title>welcome</title>".data)⟩)
      (.err []) = (true, 200, []) ∧
    containsSub ("410".data)
      ((check_url ("http://x".data) (.ok ⟨200, ("OK".data), ("text/html".data), []⟩)
        (.ok ⟨410, ("Gone".data), ("text/html".data), ("<title>welcome".data ++ "</title>".data)⟩)
        (.err [])).2.2) = false :=
  ⟨by decide, by decide⟩

/-- C5 (amended): whenever the status-determining request — the HEAD
probe, or the fallback GET issued when the probe raised — completes with
HTTP status ≥ 400, `check_url` returns `isValid = false` with that status
code and the message `"{status} {reason}"`; after a successful probe with
status ≥ 400 the result is independent of both GET slots (no content
inspection happens), and a 410 always puts `410` in the message.  The
status of the body-verification GET issued after a 200-status probe is
ignored, which is what refutes the original `at any stage` reading. -/
theorem check_url_error_status_reported (url : List Char) (hr : HttpResponse)
    (g1 g2 g1' g2' : ReqResult) (h : 400 ≤ hr.status_code) :
    check_url url (.ok hr) g1 g2 =
      (false, hr.status_code, fmt_status hr.status_code hr.reason) ∧
    check_url url (.ok hr) g1 g2 = check_url url (.ok hr) g1' g2' ∧
    (∀ e, check_url url (.err e) (.ok hr) g2 =
      (false, hr.status_code, fmt_status hr.status_code hr.reason)) ∧
    (hr.status_code = 410 →
      containsSub ("410".data) ((check_url url (.ok hr) g1 g2).2.2) = true) := by
  have hlt : ¬ (hr.status_code < 400) := by omega
  have hmain : ∀ (a b : ReqResult), check_url url (.ok hr) a b =
      (false, hr.status_code, fmt_status hr.status_code hr.reason) := by
    intro a b
    unfold check_url
    dsimp only
    split
    · simp [hlt]
    · split
      · rename_i hg
        rw [Bool.and_eq_true] at hg
        simp [hlt] at hg
      · simp [hlt]
  refine ⟨hmain g1 g2, (hmain g1 g2).trans (hmain g1' g2').symm, ?_, ?_⟩
  · intro e
    show handle_response url hr = _
    exact handle_response_error_status h
  · intro h410
    rw [hmain g1 g2]
    dsimp only
    rw [h410]
    have hpre : ("410".data).isPrefixOf (fmt_status 410 hr.reason) = true := by
      have := isPrefixOf_append_self ("410".data) ((" ".data) ++ hr.reason)
      exact this
    exact containsSub_of_prefixed hpre

/-- Witness for C5 (amended) at a 410 probe response. -/
theorem check_url_error_status_reported_witness :
    check_url ("http://x".data) (.ok ⟨410, ("Gone".data), ("text/html".data), []⟩)
      (.err []) (.err []) = (false, 410, ("410 Gone".data)) ∧
    containsSub ("410".data)
      ((check_url ("http://x".data) (.ok ⟨410, ("Gone".data), ("text/html".data), []⟩)
        (.err []) (.err [])).2.2) = true := by
  have h := check_url_error_status_reported ("http://x".data)
    ⟨410, ("Gone".data), ("text/html".data), []⟩ (.err []) (.err []) (.err []) (.err [])
    (by decide)
  refine ⟨?_, h.2.2.2 rfl⟩
  rw [h.1]
  rfl

/-- C2 counterexample: the first 5 KB of the body contains the literal
`<title>Page Not Found</title>`, but an earlier title tag exists, and the
script only inspects the first title match: `check_url` classifies the
page valid with an empty message instead of invalid with a message
quoting the title. -/
theorem check_url_soft404_literal_cex :
    containsSub ("<title>Page Not Found</title>".data)
      (("<title>Hi</title><title>Page Not Found</title>".data).take 5120) = true ∧
    check_url ("http://x".data) (.ok ⟨200, ("OK".data), ("text/html".data), []⟩)
      (.ok ⟨200, ("OK".data), ("text/html".data),
        ("<title>Hi</title><title>Page Not Found</title>".data)⟩)
      (.err []) = (true, 200, []) :=
  ⟨by decide, by decide⟩

/-- C2 (amended): if the probe returns 200 with an HTML content type and
the FIRST complete title tag within the inspected 8 KB prefix of the
fetched body has stripped (lowercased) text containing `page not found`,
then `check_url` returns `isValid = false`, `statusCode = 200`, and a
message quoting that (lowercased, stripped) title text. -/
theorem check_url_soft404_first_title (url : List Char) (hr gr : HttpResponse)
    (g2 : ReqResult) (t : List Char)
    (hst : hr.status_code = 200)
    (hct : containsSub ("text/html".data) (pyLower hr.content_type) = true)
    (hti : firstTitle (pyLower (gr.body.take MAX_BODY_SIZE)) = some t)
    (hph : containsSub ("page not found".data) (pyStrip t) = true) :
    check_url url (.ok hr) (.ok gr) g2 =
      (false, 200,
        ("200 (but page shows \x27".data) ++ pyStrip t ++ ("\x27 in title)".data)) := by
  have hne : hr.content_type.isEmpty = false := by
    cases hcc : hr.content_type with
    | nil =>
      rw [hcc] at hct
      exact absurd hct (by decide)
    | cons a as => simp
  have hdl : is_downloadable_file url hr.content_type = false := by
    unfold is_downloadable_file
    rw [if_pos ⟨hne, hct⟩]
  have hins : inspect_content gr.body =
      (false, ("200 (but page shows \x27".data) ++ pyStrip t ++ ("\x27 in title)".data)) := by
    unfold inspect_content
    rw [hti]
    dsimp only
    rw [if_pos]
    simp [notFoundPhrases, hph]
  unfold check_url
  dsimp only
  rw [if_neg (by simp [hdl]), hst]
  rw [if_pos (by decide)]
  rw [hins]

/-- Witness for C2 (amended). -/
theorem check_url_soft404_first_title_witness :
    (firstTitle (pyLower ((("<title>Page Not Found</title>".data) : List Char).take
      MAX_BODY_SIZE)) = some ("page not found".data)) ∧
    check_url ("http://x".data) (.ok ⟨200, ("OK".data), ("text/html".data), []⟩)
      (.ok ⟨200, ("OK".data), ("text/html".data), ("<title>Page Not Found</title>".data)⟩)
      (.err []) =
      (false, 200, ("200 (but page shows \x27".data) ++ ("page not found".data) ++
        ("\x27 in title)".data)) := by
  refine ⟨by decide, ?_⟩
  have h := check_url_soft404_first_title ("http://x".data)
    ⟨200, ("OK".data), ("text/html".data), []⟩
    ⟨200, ("OK".data), ("text/html".data), ("<title>Page Not Found</title>".data)⟩
    (.err []) ("page not found".data) rfl (by decide) (by decide) (by decide)
  rw [h]
  decide

theorem inspect_content_cases (body : List Char) :
    inspect_content body = (true, []) ∨ (inspect_content body).1 = false := by
  unfold inspect_content
  split
  · split
    · right; rfl
    · left; rfl
  · split
    · right; rfl
    · left; rfl

theorem handle_response_valid_empty {url : List Char} {r : HttpResponse} :
    (handle_response url r).1 = true → (handle_response url r).2.2 = [] := by
  intro h
  unfold handle_response at h ⊢
  by_cases hdl : is_downloadable_file url r.content_type = true
  · rw [if_pos hdl] at h ⊢
    rw [decide_eq_true_eq] at h
    simp [h]
  · rw [if_neg hdl] at h ⊢
    by_cases hg : (decide (r.status_code < 400) && (r.status_code == 200)) = true
    · rw [if_pos hg] at h ⊢
      rcases inspect_content_cases r.body with hc | hc
      · simp [hc]
      · rw [hc] at h
        simp at h
    · rw [if_neg hg] at h ⊢
      rw [decide_eq_true_eq] at h
      simp [h]

theorem get_fallback_valid_empty {url : List Char} {g : ReqResult} :
    (get_fallback url g).1 = true → (get_fallback url g).2.2 = [] := by
  cases g with
  | err m => intro h; simp [get_fallback] at h
  | ok r => exact handle_response_valid_empty

/-- C9: whenever `check_url` reports a URL valid, the returned message is
the empty string: every return site of the script pairs `is_valid = True`
with `error_message = ""`. -/
theorem check_url_valid_empty_message (url : List Char) (h g1 g2 : ReqResult)
    (hv : (check_url url h g1 g2).1 = true) : (check_url url h g1 g2).2.2 = [] := by
  cases h with
  | err e => exact get_fallback_valid_empty hv
  | ok hr =>
    unfold check_url at hv ⊢
    dsimp only at hv ⊢
    by_cases hdl : is_downloadable_file url hr.content_type = true
    · rw [if_pos hdl] at hv ⊢
      rw [decide_eq_true_eq] at hv
      simp [hv]
    · rw [if_neg hdl] at hv ⊢
      by_cases hg : (decide (hr.status_code < 400) && (hr.status_code == 200)) = true
      · rw [if_pos hg] at hv ⊢
        cases g1 with
        | err m => exact get_fallback_valid_empty hv
        | ok gr =>
          rcases inspect_content_cases gr.body with hc | hc
          · simp [hc]
          · rw [hc] at hv
            simp at hv
      · rw [if_neg hg] at hv ⊢
        rw [decide_eq_true_eq] at hv
        simp [hv]

/-- Witness for C9. -/
theorem check_url_valid_empty_message_witness :
    ((check_url ("http://x".data)
      (.ok ⟨200, ("OK".data), ("application/pdf".data), []⟩) (.err []) (.err [])).1 = true) ∧
    ((check_url ("http://x".data)
      (.ok ⟨200, ("OK".data), ("application/pdf".data), []⟩) (.err []) (.err [])).2.2 = []) :=
  ⟨by decide, check_url_valid_empty_message ("http://x".data)
    (.ok ⟨200, ("OK".data), ("application/pdf".data), []⟩) (.err []) (.err []) (by decide)⟩
